import Mathlib

/-!
# Verification of the operator-sdk reconciliation core

Shallow embedding of `pkg/finalizer/finalizer.go` and
`pkg/helm/controller/controller.go` together with proofs of the frozen
claims about them.

Go's in-place mutation of a resource is modelled by explicit state
passing: a finalizer action takes the resource and returns the mutated
resource together with an optional error (mirroring a Go func that
mutates its argument and returns `error`).
-/

set_option autoImplicit false

namespace Finalizer

/-- A `Finalizable` resource: the finalizer name list plus the rest of
the object (`payload`), which finalizer actions may also mutate.
Mirrors the Go interface `Finalizable` (`GetFinalizers`/`SetFinalizers`
over a `runtime.Object`). -/
structure Resource (σ : Type) where
  finalizers : List String
  payload : σ
deriving DecidableEq

/-- A finalizer action (`Finalizer.Finalize(Finalizable) error`): it may
mutate the resource and may return an error. -/
abbrev FAction (σ E : Type) : Type := Resource σ → Resource σ × Option E

/-- The `Manager`'s `finalizers map[string]Finalizer`, modelled as an
association list with distinct keys (the `sync.RWMutex` guards
concurrent access in Go and has no sequential content). -/
abbrev Manager (σ E : Type) : Type := List (String × FAction σ E)

/-- `Manager.RegisterFinalizer`: map insertion, last writer wins. -/
def registerFinalizer {σ E : Type} (fm : Manager σ E) (name : String)
    (f : FAction σ E) : Manager σ E :=
  (name, f) :: fm.filter (fun p => !(p.1 == name))

/-- Map lookup `fm.finalizers[name]`. -/
def lookupFinalizer {σ E : Type} : Manager σ E → String → Option (FAction σ E)
  | [], _ => none
  | p :: rest, n => if p.1 = n then some p.2 else lookupFinalizer rest n

/-- Result of one pass of the `Finalize` loop over the snapshot
`toFinalize`.  `res` is the resource as mutated by the actions that ran,
`err` the first action error (if any), `runs` the names whose actions
were invoked (in invocation order), and `kept` the names left in the
working list. -/
structure LoopOut (σ E : Type) where
  res : Resource σ
  err : Option E
  runs : List String
  kept : List String

/-- The loop body of `Manager.Finalize` (finalizer.go lines 63-76).

The Go loop walks `toFinalize` with an index `i`: a name with a
registered action is run and, on success, removed at `i` (so `i` then
points at the next remaining name); a name with no registration is kept
and `i` is incremented; an action error returns immediately.  Names
before `i` are exactly the names already decided to be kept, so the loop
is the following structural recursion over the still-unvisited suffix,
with `kept` collecting the names the pass leaves in place. -/
def finalizeLoop {σ E : Type} (fm : Manager σ E) :
    Resource σ → List String → LoopOut σ E
  | res, [] => ⟨res, none, [], []⟩
  | res, n :: rest =>
    match lookupFinalizer fm n with
    | some f =>
      match f res with
      | (res', some e) => ⟨res', some e, [n], []⟩
      | (res', none) =>
        let o := finalizeLoop fm res' rest
        ⟨o.res, o.err, n :: o.runs, o.kept⟩
    | none =>
      let o := finalizeLoop fm res rest
      ⟨o.res, o.err, o.runs, n :: o.kept⟩

/-- Result of `Manager.Finalize`: final resource state, returned error,
invoked action names, and the arguments of the `SetFinalizers` calls
performed (to state "written back exactly once"). -/
structure FinalizeResult (σ E : Type) where
  res : Resource σ
  err : Option E
  runs : List String
  writes : List (List String)

/-- `Manager.Finalize` (finalizer.go lines 61-79): snapshot the
finalizer list, run the loop, and on success (and only then) write the
resulting list back with a single `SetFinalizers` call.  On an action
error the error is returned at once and no write happens. -/
def finalize {σ E : Type} (fm : Manager σ E) (res : Resource σ) :
    FinalizeResult σ E :=
  let o := finalizeLoop fm res res.finalizers
  match o.err with
  | some e => ⟨o.res, some e, o.runs, []⟩
  | none => ⟨{ o.res with finalizers := o.kept }, none, o.runs, [o.kept]⟩

/-- Errors returned by `FinalizeOne`: the sentinel `ErrNotFound` or an
error from the action itself. -/
inductive FinalizeOneError (E : Type) where
  | notFound
  | action (e : E)
deriving DecidableEq

/-- `Manager.FinalizeOne` (finalizer.go lines 81-103): look the name up,
fail with `ErrNotFound` if absent, run the action, and on success remove
the first occurrence of the name from the (re-read) finalizer list. -/
def finalizeOne {σ E : Type} (fm : Manager σ E) (name : String)
    (res : Resource σ) : Resource σ × Option (FinalizeOneError E) :=
  match lookupFinalizer fm name with
  | none => (res, some .notFound)
  | some f =>
    match f res with
    | (res', some e) => (res', some (.action e))
    | (res', none) =>
      ({ res' with finalizers := res'.finalizers.erase name }, none)

/-- `Manager.Reconcile` (finalizer.go lines 105-122): build the set of
names already on the resource, then walk the registered names, flagging
and appending each missing one to a **local** slice.  The Go function
never calls `SetFinalizers`, so the resource is returned unchanged; the
second component of the fold mirrors the dead local `finalizers` slice.
The error return is always nil in the source, so none is modelled. -/
def reconcile {σ E : Type} (fm : Manager σ E) (res : Resource σ) :
    Bool × Resource σ :=
  let out := fm.foldl
    (fun (acc : Bool × List String) p =>
      if p.1 ∈ res.finalizers then acc else (true, acc.2 ++ [p.1]))
    (false, res.finalizers)
  (out.1, res)

/-- `Manager.ReconcileOne` (finalizer.go lines 124-134): if the name is
already present return `false` without writing; otherwise append it and
write the list back. -/
def reconcileOne {σ : Type} (res : Resource σ) (name : String) :
    Bool × Resource σ :=
  if name ∈ res.finalizers then (false, res)
  else (true, { res with finalizers := res.finalizers ++ [name] })

end Finalizer

namespace HelmController

/-- `schema.GroupVersionKind`. -/
structure GVK where
  group : String
  version : String
  kind : String
deriving DecidableEq

/-- `meta.RESTScopeName`: cluster scope (`root`) or namespace scope. -/
inductive RESTScopeName where
  | root
  | namespaced
deriving DecidableEq

/-- Observable calls made by the registration pass, for the claims about
lookup and subscription counts: a `restMapper.RESTMapping` resolution for
a group-version-kind, or a `c.Watch` subscription for one. -/
inductive HookEvent where
  | restMapping (gvk : GVK)
  | watch (gvk : GVK)
deriving DecidableEq

/-- The collaborators of `releaseHook` (controller.go lines 190-244):
the owner's group-version-kind, the kind-mapping metadata service
(`restMapper.RESTMapping`, returning a scope or an error), and the
outcome of a `c.Watch` subscription attempt per kind.  Both collaborators
are modelled as functions of the kind, matching their per-kind,
idempotent contract. -/
structure HookCtx where
  ownerGVK : GVK
  scopeOf : GVK → Except String RESTScopeName
  subscribeErr : GVK → Option String

/-- Result of one registration pass: the returned error (if any), the
`watches` seen-set afterwards (the closed-over `map[GVK]struct\x7b\x7d`,
which persists across calls and across an abort), and the trace of
collaborator calls made. -/
structure HookOut where
  err : Option String
  watches : List GVK
  trace : List HookEvent

/-- The manifest decoded as a YAML document stream: each document either
decodes to an object (here reduced to its group-version-kind, the only
field the pass reads) or fails to decode. -/
abbrev ManifestDoc : Type := Except String GVK

/-- `releaseHook` (controller.go lines 192-244): walk the decoded
document stream; a decode error aborts the pass; a kind already in the
seen-set is skipped before any resolution; otherwise resolve the scopes
of the dependent and of the owner; a cluster-scoped dependent under a
namespace-scoped owner is marked seen without subscribing; any other
combination subscribes (`c.Watch`) and, on success, marks the kind
seen. -/
def releaseHook (ctx : HookCtx) : List ManifestDoc → List GVK → HookOut
  | [], w => ⟨none, w, []⟩
  | .error e :: _, w => ⟨some e, w, []⟩
  | .ok gvk :: rest, w =>
    if gvk ∈ w then releaseHook ctx rest w
    else
      match ctx.scopeOf gvk with
      | .error e => ⟨some e, w, [.restMapping gvk]⟩
      | .ok depScope =>
        match ctx.scopeOf ctx.ownerGVK with
        | .error e => ⟨some e, w, [.restMapping gvk, .restMapping ctx.ownerGVK]⟩
        | .ok ownerScope =>
          if ownerScope ≠ .root ∧ depScope = .root then
            let o := releaseHook ctx rest (w ++ [gvk])
            ⟨o.err, o.watches,
              .restMapping gvk :: .restMapping ctx.ownerGVK :: o.trace⟩
          else
            match ctx.subscribeErr gvk with
            | some e =>
              ⟨some e, w,
                [.restMapping gvk, .restMapping ctx.ownerGVK, .watch gvk]⟩
            | none =>
              let o := releaseHook ctx rest (w ++ [gvk])
              ⟨o.err, o.watches,
                .restMapping gvk :: .restMapping ctx.ownerGVK
                  :: .watch gvk :: o.trace⟩

/-- A dependent resource object as compared by `dependentPredicate`
(controller.go lines 151-188): its top-level `status` field, its
`metadata.resourceVersion`, and all of its remaining content (`other`).
`reflect.DeepEqual` on the underlying maps is equality of this record. -/
structure DepObj (V O : Type) where
  status : Option V
  resourceVersion : Option String
  other : O
deriving DecidableEq

/-- The normalization both sides undergo before comparison:
`delete(obj, "status")` and `SetResourceVersion("")`. -/
def stripForCompare {V O : Type} (o : DepObj V O) : DepObj V O :=
  { o with status := none, resourceVersion := none }

/-- `dependentPredicate.UpdateFunc`: deep-copy both objects, strip
status and resourceVersion, and reconcile only if they then differ. -/
def dependentUpdateFunc {V O : Type} [DecidableEq V] [DecidableEq O]
    (old new : DepObj V O) : Bool :=
  if stripForCompare old = stripForCompare new then false else true

/-- `dependentPredicate.CreateFunc`: never reconcile on dependent
creation. -/
def dependentCreateFunc {V O : Type} (_o : DepObj V O) : Bool := false

/-- `dependentPredicate.DeleteFunc`: always reconcile on dependent
deletion. -/
def dependentDeleteFunc {V O : Type} (_o : DepObj V O) : Bool := true

/-- `types.ConditionDeployed` / `types.ConditionReleaseFailed`, the two
condition types the uninstall finalizer touches. -/
inductive ConditionType where
  | deployed
  | releaseFailed
deriving DecidableEq

/-- Condition status `types.StatusTrue` / `types.StatusFalse`. -/
inductive ConditionStatus where
  | statusTrue
  | statusFalse
deriving DecidableEq

/-- `types.ReasonUninstallSuccessful` (the spec's reason "uninstall
successful") and `types.ReasonUninstallError`. -/
inductive ConditionReason where
  | uninstallSuccessful
  | uninstallError
deriving DecidableEq

/-- `types.HelmAppCondition` as used here (type, status, reason,
message; the last-transition-time plays no role in these claims). -/
structure HelmAppCondition where
  ctype : ConditionType
  cstatus : ConditionStatus
  reason : Option ConditionReason
  message : String
deriving DecidableEq

/-- Modelled from the spec: `HelmAppStatus.SetCondition` of the
`pkg/helm/internal/types` package, which is not among the provided
sources.  The spec requires at most one condition per type, with a set
of an existing type replacing it in place. -/
def setCondition (conds : List HelmAppCondition) (c : HelmAppCondition) :
    List HelmAppCondition :=
  if conds.any (fun x => x.ctype == c.ctype) then
    conds.map (fun x => if x.ctype = c.ctype then c else x)
  else
    conds ++ [c]

/-- Modelled from the spec: `HelmAppStatus.RemoveCondition` of the
`pkg/helm/internal/types` package (not among the provided sources):
drops the condition of the given type, if present. -/
def removeCondition (conds : List HelmAppCondition) (t : ConditionType) :
    List HelmAppCondition :=
  conds.filter (fun x => !(x.ctype == t))

/-- The custom resource as the uninstall finalizer sees it: its
finalizer list plus its status conditions as the payload. -/
abbrev HelmCR : Type := Finalizer.Resource (List HelmAppCondition)

/-- Outcome of `manager.UninstallRelease`: a release (its manifest), the
sentinel `release.ErrNotFound`, or any other error. -/
inductive UninstallOutcome where
  | ok (manifest : String)
  | errNotFound
  | err (msg : String)
deriving DecidableEq

/-- The body of the `NewUninstallFinalizer` closure (controller.go lines
61-108).  `uninstall` is the outcome of `manager.UninstallRelease` and
`updateErr` the outcome of `r.updateResourceStatus`.  On an uninstall
error other than not-found, a `ReleaseFailed=True` condition with the
error message is recorded, the status write result is discarded, and the
error is returned.  Otherwise `ReleaseFailed` is removed; on an actual
uninstall (not the not-found case) `Deployed=False` with reason
"uninstall successful" is set; the status write result is returned.  The
deferred `o.Object["status"] = status` write is the conditions update on
the returned resource. -/
def uninstallFinalize (uninstall : UninstallOutcome)
    (updateErr : Option String) (o : HelmCR) : HelmCR × Option String :=
  match uninstall with
  | .err msg =>
    let conds := setCondition o.payload
      ⟨.releaseFailed, .statusTrue, some .uninstallError, msg⟩
    ({ o with payload := conds }, some msg)
  | .errNotFound =>
    let conds := removeCondition o.payload .releaseFailed
    ({ o with payload := conds }, updateErr)
  | .ok _ =>
    let conds := setCondition (removeCondition o.payload .releaseFailed)
      ⟨.deployed, .statusFalse, some .uninstallSuccessful, ""⟩
    ({ o with payload := conds }, updateErr)

/-- The uninstall finalizer as a finalizer action. -/
def uninstallAction (uninstall : UninstallOutcome)
    (updateErr : Option String) : Finalizer.FAction (List HelmAppCondition) String :=
  fun o => uninstallFinalize uninstall updateErr o

/-- The fixed name under which `Add` (controller.go line 119) registers
the uninstall finalizer. -/
def uninstallFinalizerName : String := "uninstall-helm-release"

/-- The finalizer manager as set up by `Add`: a fresh manager with the
uninstall finalizer registered under the fixed name. -/
def addManager (uninstall : UninstallOutcome) (updateErr : Option String) :
    Finalizer.Manager (List HelmAppCondition) String :=
  Finalizer.registerFinalizer [] uninstallFinalizerName
    (uninstallAction uninstall updateErr)

end HelmController

namespace Finalizer

/-- Sample action: increments a numeric payload, always succeeds. -/
def okAction : FAction Nat String :=
  fun r => ({ r with payload := r.payload + 1 }, none)

/-- Sample action: leaves the resource untouched, always succeeds. -/
def idOk : FAction Unit String := fun r => (r, none)

/-- Sample action: leaves the resource untouched and fails. -/
def failAction : FAction Unit String := fun r => (r, some "boom")

/-- Sample manager registering one action under "a". -/
def mOne : Manager Nat String := [("a", okAction)]

/-- Sample resource carrying the single finalizer "a". -/
def rOne : Resource Nat := ⟨["a"], 0⟩

/-- Sample resource whose list mixes registered and unregistered names. -/
def rThree : Resource Nat := ⟨["x", "a", "y"], 0⟩

/-- Sample manager where "a" succeeds and "b" fails. -/
def mFail : Manager Unit String := [("a", idOk), ("b", failAction)]

/-- Sample manager where both "a" and "b" succeed. -/
def mFixed : Manager Unit String := [("a", idOk), ("b", idOk)]

/-- Sample resource with finalizer list ["a", "b"]. -/
def rAB : Resource Unit := ⟨["a", "b"], ()⟩

/-- Sample resource with finalizer list ["a"]. -/
def rA : Resource Unit := ⟨["a"], ()⟩

end Finalizer

namespace HelmController

/-- Sample owner kind. -/
def ownerSample : GVK := ⟨"apps.example.com", "v1alpha1", "MyApp"⟩

/-- Sample cluster-scoped dependent kind. -/
def clusterKind : GVK := ⟨"rbac.authorization.k8s.io", "v1", "ClusterRole"⟩

/-- Sample namespace-scoped dependent kind. -/
def deployKind : GVK := ⟨"apps", "v1", "Deployment"⟩

/-- Second sample namespace-scoped dependent kind. -/
def svcKind : GVK := ⟨"", "v1", "Service"⟩

/-- Sample context: `clusterKind` resolves cluster-scoped, everything
else (the owner included) namespace-scoped; subscriptions succeed. -/
def ctxSample : HookCtx :=
  ⟨ownerSample,
   fun g => if g = clusterKind then .ok .root else .ok .namespaced,
   fun _ => none⟩

/-- Sample custom resource carrying the uninstall finalizer plus a
foreign finalizer name, with no conditions yet. -/
def crSample : HelmCR := ⟨["uninstall-helm-release", "keep-me"], []⟩

end HelmController

namespace Finalizer

/-- A successful lookup comes from a registered pair. -/
theorem lookupFinalizer_mem {σ E : Type} {fm : Manager σ E} {n : String}
    {f : FAction σ E} (h : lookupFinalizer fm n = some f) : (n, f) ∈ fm := by
  induction fm with
  | nil => simp [lookupFinalizer] at h
  | cons p rest ih =>
    obtain ⟨a, g⟩ := p
    by_cases hp : a = n
    · simp [lookupFinalizer, hp] at h
      subst hp
      subst h
      exact List.mem_cons_self _ _
    · simp [lookupFinalizer, hp] at h
      exact List.mem_cons_of_mem _ (ih h)

/-- On a pass with no action error, the names kept are exactly the names
with no registration and the names run are exactly those with one, in
list order. -/
theorem finalizeLoop_success {σ E : Type} (fm : Manager σ E)
    (tf : List String) (res : Resource σ)
    (h : (finalizeLoop fm res tf).err = none) :
    (finalizeLoop fm res tf).kept
        = tf.filter (fun n => (lookupFinalizer fm n).isNone) ∧
    (finalizeLoop fm res tf).runs
        = tf.filter (fun n => (lookupFinalizer fm n).isSome) := by
  induction tf generalizing res with
  | nil => simp [finalizeLoop]
  | cons n rest ih =>
    rcases hl : lookupFinalizer fm n with _ | f
    · have h' : (finalizeLoop fm res rest).err = none := by
        simpa [finalizeLoop, hl] using h
      obtain ⟨hk, hr⟩ := ih res h'
      simp [finalizeLoop, hl, List.filter_cons, hk, hr]
    · rcases hf : f res with ⟨res', e'⟩
      cases e' with
      | some e => simp [finalizeLoop, hl, hf] at h
      | none =>
        have h' : (finalizeLoop fm res' rest).err = none := by
          simpa [finalizeLoop, hl, hf] using h
        obtain ⟨hk, hr⟩ := ih res' h'
        simp [finalizeLoop, hl, hf, List.filter_cons, hk, hr]

/-- If every registered action succeeds, the pass reports no error. -/
theorem finalizeLoop_err_none {σ E : Type} (fm : Manager σ E)
    (hok : ∀ p ∈ fm, ∀ s : Resource σ, (p.2 s).2 = none)
    (tf : List String) (res : Resource σ) :
    (finalizeLoop fm res tf).err = none := by
  induction tf generalizing res with
  | nil => simp [finalizeLoop]
  | cons n rest ih =>
    rcases hl : lookupFinalizer fm n with _ | f
    · simpa [finalizeLoop, hl] using ih res
    · rcases hf : f res with ⟨res', e'⟩
      have h2 : (f res).2 = none := hok (n, f) (lookupFinalizer_mem hl) res
      rw [hf] at h2
      cases e' with
      | some e => exact absurd h2 (by simp)
      | none => simpa [finalizeLoop, hl, hf] using ih res'

/-- If every registered action leaves the finalizer list of the resource
unchanged, so does the loop's action chain (the loop itself only edits
its local working list). -/
theorem finalizeLoop_res_finalizers {σ E : Type} (fm : Manager σ E)
    (hpres : ∀ p ∈ fm, ∀ s : Resource σ, ((p.2 s).1).finalizers = s.finalizers)
    (tf : List String) (res : Resource σ) :
    ((finalizeLoop fm res tf).res).finalizers = res.finalizers := by
  induction tf generalizing res with
  | nil => simp [finalizeLoop]
  | cons n rest ih =>
    rcases hl : lookupFinalizer fm n with _ | f
    · simpa [finalizeLoop, hl] using ih res
    · rcases hf : f res with ⟨res', e'⟩
      have hpf : ((f res).1).finalizers = res.finalizers :=
        hpres (n, f) (lookupFinalizer_mem hl) res
      rw [hf] at hpf
      cases e' with
      | some e => simpa [finalizeLoop, hl, hf] using hpf
      | none =>
        have := ih res'
        simpa [finalizeLoop, hl, hf, this] using hpf

/-- If every registered action preserves freedom from duplicates of the
finalizer list, the action chain run by the loop does too. -/
theorem finalizeLoop_res_nodup {σ E : Type} (fm : Manager σ E)
    (hnd : ∀ p ∈ fm, ∀ s : Resource σ,
      s.finalizers.Nodup → ((p.2 s).1).finalizers.Nodup)
    (tf : List String) (res : Resource σ) (h : res.finalizers.Nodup) :
    ((finalizeLoop fm res tf).res).finalizers.Nodup := by
  induction tf generalizing res with
  | nil => simpa [finalizeLoop] using h
  | cons n rest ih =>
    rcases hl : lookupFinalizer fm n with _ | f
    · simpa [finalizeLoop, hl] using ih res h
    · rcases hf : f res with ⟨res', e'⟩
      have hpf : ((f res).1).finalizers.Nodup :=
        hnd (n, f) (lookupFinalizer_mem hl) res h
      rw [hf] at hpf
      cases e' with
      | some e => simpa [finalizeLoop, hl, hf] using hpf
      | none => simpa [finalizeLoop, hl, hf] using ih res' hpf

end Finalizer

namespace Finalizer

/-- C1: `Manager.Reconcile` is claimed to add every missing registered
name to the resource and to return `false` on a second call.  The code
computes the missing names into a local slice but never calls
`SetFinalizers`: on a resource with finalizer list `["a"]` and
registered names `a` and `b` it returns `true` while leaving the list
`["a"]`, and a second call returns `true` again instead of `false`. -/
theorem c1_reconcile_never_writes :
    (reconcile mFixed rA).1 = true ∧
    (reconcile mFixed rA).2 = rA ∧
    ((reconcile mFixed rA).2).finalizers = ["a"] ∧
    (reconcile mFixed ((reconcile mFixed rA).2)).1 = true := by
  refine ⟨?_, rfl, rfl, ?_⟩ <;> rfl

end Finalizer

namespace Finalizer

/-- When every registered action succeeds, `Finalize` returns no error,
runs exactly the registered names on the list, and keeps exactly the
unregistered ones. -/
theorem finalize_all_ok {σ E : Type} (fm : Manager σ E) (res : Resource σ)
    (hok : ∀ p ∈ fm, ∀ s : Resource σ, (p.2 s).2 = none) :
    (finalize fm res).err = none ∧
    (finalize fm res).runs
      = res.finalizers.filter (fun n => (lookupFinalizer fm n).isSome) ∧
    ((finalize fm res).res).finalizers
      = res.finalizers.filter (fun n => (lookupFinalizer fm n).isNone) := by
  have ho := finalizeLoop_err_none fm hok res.finalizers res
  obtain ⟨hk, hr⟩ := finalizeLoop_success fm res.finalizers res ho
  exact ⟨by simp [finalize, ho], by simp [finalize, ho, hr],
    by simp [finalize, ho, hk]⟩

/-- C2 counterexample: on resource `["a", "b"]` with `a` succeeding and
`b` failing, the first `Finalize` runs `a` (successfully) and then `b`,
aborts with the error, and leaves the list `["a", "b"]`.  The claim says
a second call with `b` fixed removes exactly `b` plus the names not yet
attempted — here none, so it predicts the list `["a"]` — but the second
call re-runs the already-attempted `a` as well and leaves `[]`. -/
theorem c2_counterexample :
    (finalize mFail rAB).err = some "boom" ∧
    (finalize mFail rAB).runs = ["a", "b"] ∧
    ((finalize mFail rAB).res).finalizers = ["a", "b"] ∧
    ((finalize mFixed ((finalize mFail rAB).res)).res).finalizers = [] ∧
    ((finalize mFixed ((finalize mFail rAB).res)).res).finalizers ≠ ["a"] := by
  refine ⟨rfl, rfl, rfl, rfl, ?_⟩
  decide

/-- C2 (amended): if `Finalize` aborts with an action error then (given
the actions do not edit the finalizer list themselves) it performs no
`SetFinalizers` call and leaves the finalizer list — the failed name
included — unchanged; a second `Finalize` whose registered actions now
all succeed removes every name with a registered action: the failed
name, the names not yet attempted, and also the names whose actions had
already succeeded in the first call, which are run again because their
removal was never written back. -/
theorem c2_amended_abort_then_retry {σ E : Type} (fm fm₂ : Manager σ E)
    (res : Resource σ) (e : E)
    (hpres : ∀ p ∈ fm, ∀ s : Resource σ,
      ((p.2 s).1).finalizers = s.finalizers)
    (he : (finalize fm res).err = some e)
    (hok₂ : ∀ p ∈ fm₂, ∀ s : Resource σ, (p.2 s).2 = none) :
    (finalize fm res).writes = [] ∧
    ((finalize fm res).res).finalizers = res.finalizers ∧
    (finalize fm₂ ((finalize fm res).res)).runs
      = res.finalizers.filter (fun n => (lookupFinalizer fm₂ n).isSome) ∧
    ((finalize fm₂ ((finalize fm res).res)).res).finalizers
      = res.finalizers.filter (fun n => (lookupFinalizer fm₂ n).isNone) := by
  rcases ho : (finalizeLoop fm res res.finalizers).err with _ | e'
  · simp [finalize, ho] at he
  · have hfin : ((finalize fm res).res).finalizers = res.finalizers := by
      simpa [finalize, ho] using
        finalizeLoop_res_finalizers fm hpres res.finalizers res
    obtain ⟨h2e, h2r, h2k⟩ := finalize_all_ok fm₂ ((finalize fm res).res) hok₂
    rw [hfin] at h2r h2k
    exact ⟨by simp [finalize, ho], hfin, h2r, h2k⟩

/-- C2 amended-claim witness at the concrete counterexample input. -/
theorem c2_amended_witness :
    (finalize mFail rAB).writes = [] ∧
    ((finalize mFail rAB).res).finalizers = rAB.finalizers ∧
    (finalize mFixed ((finalize mFail rAB).res)).runs
      = rAB.finalizers.filter (fun n => (lookupFinalizer mFixed n).isSome) ∧
    ((finalize mFixed ((finalize mFail rAB).res)).res).finalizers
      = rAB.finalizers.filter (fun n => (lookupFinalizer mFixed n).isNone) := by
  refine c2_amended_abort_then_retry mFail mFixed rAB "boom" ?_ rfl ?_
  · intro p hp s
    simp only [mFail, List.mem_cons, List.not_mem_nil, or_false] at hp
    rcases hp with rfl | rfl <;> rfl
  · intro p hp s
    simp only [mFixed, List.mem_cons, List.not_mem_nil, or_false] at hp
    rcases hp with rfl | rfl <;> rfl

end Finalizer

namespace Finalizer

/-- C3: when `Finalize` returns no error on a duplicate-free resource,
every registered action whose name is on the finalizer list runs exactly
once, the resulting list contains none of the run names, and the list is
written back with exactly one `SetFinalizers` call. -/
theorem c3_finalize_runs_once_single_write {σ E : Type}
    (fm : Manager σ E) (res : Resource σ) (hnd : res.finalizers.Nodup)
    (hok : (finalize fm res).err = none) :
    (∀ n : String, (lookupFinalizer fm n).isSome = true →
        n ∈ res.finalizers → (finalize fm res).runs.count n = 1) ∧
    (∀ n ∈ (finalize fm res).runs, n ∉ ((finalize fm res).res).finalizers) ∧
    (finalize fm res).writes = [((finalize fm res).res).finalizers] := by
  rcases ho : (finalizeLoop fm res res.finalizers).err with _ | e
  · obtain ⟨hk, hr⟩ := finalizeLoop_success fm res.finalizers res ho
    have hruns : (finalize fm res).runs
        = res.finalizers.filter (fun n => (lookupFinalizer fm n).isSome) := by
      simp [finalize, ho, hr]
    have hfin : ((finalize fm res).res).finalizers
        = res.finalizers.filter (fun n => (lookupFinalizer fm n).isNone) := by
      simp [finalize, ho, hk]
    refine ⟨?_, ?_, ?_⟩
    · intro n hs hm
      rw [hruns]
      exact List.count_eq_one_of_mem (hnd.filter _)
        (List.mem_filter.mpr ⟨hm, hs⟩)
    · intro n hn
      rw [hruns] at hn
      rw [hfin]
      intro hmem
      rw [List.mem_filter] at hn hmem
      rcases hlk : lookupFinalizer fm n with _ | f
      · rw [hlk] at hn
        simp at hn
      · rw [hlk] at hmem
        simp at hmem
    · simp [finalize, ho, hk]
  · simp [finalize, ho] at hok

/-- C3 witness at a concrete one-name manager and resource. -/
theorem c3_witness :
    (finalize mOne rOne).runs.count "a" = 1 ∧
    "a" ∉ ((finalize mOne rOne).res).finalizers ∧
    (finalize mOne rOne).writes = [((finalize mOne rOne).res).finalizers] := by
  obtain ⟨h1, h2, h3⟩ :=
    c3_finalize_runs_once_single_write mOne rOne (by decide) rfl
  exact ⟨h1 "a" rfl (by decide), h2 "a" (by decide), h3⟩

/-- C9: starting from a duplicate-free finalizer list, and with every
registered action preserving that freedom, each of the four Manager
operations leaves the resource's finalizer list duplicate-free, on
success and on error alike. -/
theorem c9_nodup_invariant {σ E : Type} (fm : Manager σ E)
    (res : Resource σ) (name : String)
    (hnd : res.finalizers.Nodup)
    (hacts : ∀ p ∈ fm, ∀ s : Resource σ,
      s.finalizers.Nodup → ((p.2 s).1).finalizers.Nodup) :
    ((finalize fm res).res).finalizers.Nodup ∧
    ((finalizeOne fm name res).1).finalizers.Nodup ∧
    ((reconcile fm res).2).finalizers.Nodup ∧
    ((reconcileOne res name).2).finalizers.Nodup := by
  refine ⟨?_, ?_, ?_, ?_⟩
  · rcases ho : (finalizeLoop fm res res.finalizers).err with _ | e
    · obtain ⟨hk, _⟩ := finalizeLoop_success fm res.finalizers res ho
      have hfin : ((finalize fm res).res).finalizers
          = res.finalizers.filter (fun n => (lookupFinalizer fm n).isNone) := by
        simp [finalize, ho, hk]
      rw [hfin]
      exact hnd.filter _
    · have hres : (finalize fm res).res
          = (finalizeLoop fm res res.finalizers).res := by
        simp [finalize, ho]
      rw [hres]
      exact finalizeLoop_res_nodup fm hacts res.finalizers res hnd
  · rcases hlk : lookupFinalizer fm name with _ | f
    · simpa [finalizeOne, hlk] using hnd
    · rcases hf : f res with ⟨res', e'⟩
      have hr' : ((f res).1).finalizers.Nodup :=
        hacts (name, f) (lookupFinalizer_mem hlk) res hnd
      rw [hf] at hr'
      cases e' with
      | some e => simpa [finalizeOne, hlk, hf] using hr'
      | none => simpa [finalizeOne, hlk, hf] using hr'.erase name
  · simpa [reconcile] using hnd
  · by_cases hm : name ∈ res.finalizers
    · simpa [reconcileOne, hm] using hnd
    · have hfin : ((reconcileOne res name).2).finalizers
          = res.finalizers ++ [name] := by
        simp [reconcileOne, hm]
      rw [hfin]
      simp [List.nodup_append, hnd, hm]

/-- C9 witness at a concrete manager, resource and name. -/
theorem c9_witness :
    ((finalize mOne rOne).res).finalizers.Nodup ∧
    ((finalizeOne mOne "a" rOne).1).finalizers.Nodup ∧
    ((reconcile mOne rOne).2).finalizers.Nodup ∧
    ((reconcileOne rOne "a").2).finalizers.Nodup := by
  refine c9_nodup_invariant mOne rOne "a" (by decide) ?_
  intro p hp s hs
  simp only [mOne, List.mem_cons, List.not_mem_nil, or_false] at hp
  subst hp
  simpa [okAction] using hs

/-- C10: when `Finalize` returns no error, the list written back equals
the original list with exactly the registered names removed; the
unregistered names are all retained in their original relative order
(the right-hand side is a filter of the original list). -/
theorem c10_finalize_removes_exactly_registered {σ E : Type}
    (fm : Manager σ E) (res : Resource σ)
    (hok : (finalize fm res).err = none) :
    ((finalize fm res).res).finalizers
      = res.finalizers.filter (fun n => (lookupFinalizer fm n).isNone) := by
  rcases ho : (finalizeLoop fm res res.finalizers).err with _ | e
  · obtain ⟨hk, _⟩ := finalizeLoop_success fm res.finalizers res ho
    simp [finalize, ho, hk]
  · simp [finalize, ho] at hok

/-- C10 witness: on the list `["x", "a", "y"]` with only `a` registered,
the written-back list is `["x", "y"]`. -/
theorem c10_witness :
    (finalize mOne rThree).err = none ∧
    ((finalize mOne rThree).res).finalizers
      = rThree.finalizers.filter (fun n => (lookupFinalizer mOne n).isNone) ∧
    ((finalize mOne rThree).res).finalizers = ["x", "y"] :=
  ⟨rfl, c10_finalize_removes_exactly_registered mOne rThree rfl, rfl⟩

end Finalizer

namespace HelmController

/-- Kinds in the seen-set are never removed by a registration pass. -/
theorem releaseHook_mono (ctx : HookCtx) (ms : List ManifestDoc) :
    ∀ (w : List GVK) (g : GVK), g ∈ w → g ∈ (releaseHook ctx ms w).watches := by
  induction ms with
  | nil => intro w g hg; simpa [releaseHook] using hg
  | cons d rest ih =>
    intro w g hg
    rcases d with e | gvk
    · simpa [releaseHook] using hg
    · by_cases hm : gvk ∈ w
      · simpa [releaseHook, hm] using ih w g hg
      · rcases hs : ctx.scopeOf gvk with e | ds
        · simpa [releaseHook, hm, hs] using hg
        · rcases ho : ctx.scopeOf ctx.ownerGVK with e | os
          · simpa [releaseHook, hm, hs, ho] using hg
          · by_cases hc : os ≠ RESTScopeName.root ∧ ds = RESTScopeName.root
            · have hrec := ih (w ++ [gvk]) g (List.mem_append_left _ hg)
              simpa [releaseHook, hm, hs, ho, hc] using hrec
            · rcases hsub : ctx.subscribeErr gvk with _ | e
              · have hrec := ih (w ++ [gvk]) g (List.mem_append_left _ hg)
                simpa [releaseHook, hm, hs, ho, hc, hsub] using hrec
              · simpa [releaseHook, hm, hs, ho, hc, hsub] using hg

/-- No subscription is ever attempted for a kind already in the
seen-set. -/
theorem releaseHook_seen_no_watch (ctx : HookCtx) (ms : List ManifestDoc) :
    ∀ (w : List GVK) (g : GVK), g ∈ w →
      HookEvent.watch g ∉ (releaseHook ctx ms w).trace := by
  induction ms with
  | nil => intro w g hg; simp [releaseHook]
  | cons d rest ih =>
    intro w g hg
    rcases d with e | gvk
    · simp [releaseHook]
    · by_cases hm : gvk ∈ w
      · simpa [releaseHook, hm] using ih w g hg
      · have hne : g ≠ gvk := fun h => hm (h ▸ hg)
        rcases hs : ctx.scopeOf gvk with e | ds
        · simp [releaseHook, hm, hs]
        · rcases ho : ctx.scopeOf ctx.ownerGVK with e | os
          · simp [releaseHook, hm, hs, ho]
          · by_cases hc : os ≠ RESTScopeName.root ∧ ds = RESTScopeName.root
            · have hrec := ih (w ++ [gvk]) g (List.mem_append_left _ hg)
              simp [releaseHook, hm, hs, ho, hc, hrec]
            · rcases hsub : ctx.subscribeErr gvk with _ | e
              · have hrec := ih (w ++ [gvk]) g (List.mem_append_left _ hg)
                simp [releaseHook, hm, hs, ho, hc, hsub, hrec, hne]
              · simp [releaseHook, hm, hs, ho, hc, hsub, hne]

/-- A manifest all of whose documents decode to already-seen kinds is a
complete no-op: no error, no seen-set change, no collaborator call. -/
theorem releaseHook_all_seen (ctx : HookCtx) (ms : List ManifestDoc) :
    ∀ (w : List GVK), (∀ d ∈ ms, ∃ g, d = Except.ok g ∧ g ∈ w) →
      releaseHook ctx ms w = ⟨none, w, []⟩ := by
  induction ms with
  | nil => intro w _; simp [releaseHook]
  | cons d rest ih =>
    intro w h
    obtain ⟨g, rfl, hg⟩ := h d (List.mem_cons_self _ _)
    have hrest : ∀ d ∈ rest, ∃ g, d = Except.ok g ∧ g ∈ w :=
      fun d hd => h d (List.mem_cons_of_mem _ hd)
    simpa [releaseHook, hg] using ih w hrest

/-- After a pass that returns no error, every kind appearing in the
manifest is in the seen-set. -/
theorem releaseHook_success_adds (ctx : HookCtx) (ms : List ManifestDoc) :
    ∀ (w : List GVK), (releaseHook ctx ms w).err = none →
      ∀ g : GVK, Except.ok g ∈ ms → g ∈ (releaseHook ctx ms w).watches := by
  induction ms with
  | nil => intro w _ g hg; simp at hg
  | cons d rest ih =>
    intro w herr g hg
    rcases d with e | gvk
    · simp [releaseHook] at herr
    · rcases List.mem_cons.mp hg with hg | hg
      · have hgg : g = gvk := by injection hg
        subst hgg
        by_cases hm : g ∈ w
        · simpa [releaseHook, hm] using releaseHook_mono ctx rest w g hm
        · rcases hs : ctx.scopeOf g with e | ds
          · simp [releaseHook, hm, hs] at herr
          · rcases ho : ctx.scopeOf ctx.ownerGVK with e | os
            · simp [releaseHook, hm, hs, ho] at herr
            · by_cases hc : os ≠ RESTScopeName.root ∧ ds = RESTScopeName.root
              · have hrec := releaseHook_mono ctx rest (w ++ [g]) g
                  (List.mem_append_right _ (List.mem_singleton.mpr rfl))
                simpa [releaseHook, hm, hs, ho, hc] using hrec
              · rcases hsub : ctx.subscribeErr g with _ | e
                · have hrec := releaseHook_mono ctx rest (w ++ [g]) g
                    (List.mem_append_right _ (List.mem_singleton.mpr rfl))
                  simpa [releaseHook, hm, hs, ho, hc, hsub] using hrec
                · simp [releaseHook, hm, hs, ho, hc, hsub] at herr
      · by_cases hm : gvk ∈ w
        · have herr' : (releaseHook ctx rest w).err = none := by
            simpa [releaseHook, hm] using herr
          simpa [releaseHook, hm] using ih w herr' g hg
        · rcases hs : ctx.scopeOf gvk with e | ds
          · simp [releaseHook, hm, hs] at herr
          · rcases ho : ctx.scopeOf ctx.ownerGVK with e | os
            · simp [releaseHook, hm, hs, ho] at herr
            · by_cases hc : os ≠ RESTScopeName.root ∧ ds = RESTScopeName.root
              · have herr' : (releaseHook ctx rest (w ++ [gvk])).err = none := by
                  simpa [releaseHook, hm, hs, ho, hc] using herr
                simpa [releaseHook, hm, hs, ho, hc]
                  using ih (w ++ [gvk]) herr' g hg
              · rcases hsub : ctx.subscribeErr gvk with _ | e
                · have herr' : (releaseHook ctx rest (w ++ [gvk])).err = none := by
                    simpa [releaseHook, hm, hs, ho, hc, hsub] using herr
                  simpa [releaseHook, hm, hs, ho, hc, hsub]
                    using ih (w ++ [gvk]) herr' g hg
                · simp [releaseHook, hm, hs, ho, hc, hsub] at herr

end HelmController

namespace HelmController

/-- Subscription attempts are made at most once per kind in a pass, and
never for a kind already seen. -/
theorem releaseHook_watch_count (ctx : HookCtx) (ms : List ManifestDoc) :
    ∀ (w : List GVK) (g : GVK),
      (releaseHook ctx ms w).trace.count (HookEvent.watch g)
        ≤ if g ∈ w then 0 else 1 := by
  induction ms with
  | nil =>
    intro w g
    split <;> simp [releaseHook]
  | cons d rest ih =>
    intro w g
    rcases d with e | gvk
    · split <;> simp [releaseHook]
    · by_cases hm : gvk ∈ w
      · simpa [releaseHook, hm] using ih w g
      · rcases hs : ctx.scopeOf gvk with e | ds
        · split <;> simp [releaseHook, hm, hs]
        · rcases ho : ctx.scopeOf ctx.ownerGVK with e | os
          · split <;> simp [releaseHook, hm, hs, ho]
          · by_cases hc : os ≠ RESTScopeName.root ∧ ds = RESTScopeName.root
            · have hrec := ih (w ++ [gvk]) g
              by_cases hg : g ∈ w
              · have hg' : g ∈ w ++ [gvk] := List.mem_append_left _ hg
                simp only [hg, if_pos, hg', if_true] at hrec ⊢
                simpa [releaseHook, hm, hs, ho, hc] using hrec
              · by_cases hgg : g = gvk
                · have hg' : g ∈ w ++ [gvk] := by
                    simp [hgg]
                  simp only [hg', if_pos] at hrec
                  have : (releaseHook ctx rest (w ++ [gvk])).trace.count
                      (HookEvent.watch g) = 0 := Nat.le_zero.mp hrec
                  simp [releaseHook, hm, hs, ho, hc, hg, this]
                · by_cases hg' : g ∈ w ++ [gvk]
                  · have : g ∈ w := by
                      rcases List.mem_append.mp hg' with h | h
                      · exact h
                      · exact absurd (List.mem_singleton.mp h) hgg
                    exact absurd this hg
                  · simp only [hg', if_neg, not_false_iff] at hrec
                    simp only [hg, if_neg, not_false_iff]
                    simpa [releaseHook, hm, hs, ho, hc] using hrec
            · rcases hsub : ctx.subscribeErr gvk with _ | e
              · have hrec := ih (w ++ [gvk]) g
                by_cases hg : g ∈ w
                · have hg' : g ∈ w ++ [gvk] := List.mem_append_left _ hg
                  have hne : g ≠ gvk := fun h => hm (h ▸ hg)
                  simp only [hg', if_pos] at hrec
                  have h0 : (releaseHook ctx rest (w ++ [gvk])).trace.count
                      (HookEvent.watch g) = 0 := Nat.le_zero.mp hrec
                  simp [releaseHook, hm, hs, ho, hc, hsub, hg, hne, h0]
                · by_cases hgg : g = gvk
                  · have hg' : g ∈ w ++ [gvk] := by simp [hgg]
                    simp only [hg', if_pos] at hrec
                    have h0 : (releaseHook ctx rest (w ++ [gvk])).trace.count
                        (HookEvent.watch g) = 0 := Nat.le_zero.mp hrec
                    rw [hgg] at h0
                    simp [releaseHook, hm, hs, ho, hc, hsub, hg, hgg, h0]
                  · have hg' : ¬ g ∈ w ++ [gvk] := by
                      intro h
                      rcases List.mem_append.mp h with h | h
                      · exact hg h
                      · exact hgg (List.mem_singleton.mp h)
                    simp only [hg', if_neg, not_false_iff] at hrec
                    simp only [hg, if_neg, not_false_iff]
                    simpa [releaseHook, hm, hs, ho, hc, hsub, hgg] using hrec
              · by_cases hg : g ∈ w
                · have hne : g ≠ gvk := fun h => hm (h ▸ hg)
                  simp [releaseHook, hm, hs, ho, hc, hsub, hg, hne]
                · by_cases hgg : g = gvk <;>
                    simp [releaseHook, hm, hs, ho, hc, hsub, hg, hgg]

end HelmController

namespace HelmController

/-- A decode failure aborts the pass exactly where it occurs: the
documents after it are not processed, the returned error is the decode
error, and the seen-set and trace are those of the error-free prefix. -/
theorem releaseHook_decode_abort (ctx : HookCtx) (e : String)
    (rest : List ManifestDoc) (pre : List ManifestDoc) :
    ∀ (w : List GVK), (releaseHook ctx pre w).err = none →
      releaseHook ctx (pre ++ Except.error e :: rest) w
        = ⟨some e, (releaseHook ctx pre w).watches,
            (releaseHook ctx pre w).trace⟩ := by
  induction pre with
  | nil =>
    intro w _
    simp [releaseHook]
  | cons d pre' ih =>
    intro w h
    rcases d with e' | gvk
    · simp [releaseHook] at h
    · by_cases hm : gvk ∈ w
      · have h' : (releaseHook ctx pre' w).err = none := by
          simpa [releaseHook, hm] using h
        simpa [releaseHook, hm] using ih w h'
      · rcases hs : ctx.scopeOf gvk with e'' | ds
        · simp [releaseHook, hm, hs] at h
        · rcases ho : ctx.scopeOf ctx.ownerGVK with e'' | os
          · simp [releaseHook, hm, hs, ho] at h
          · by_cases hc : os ≠ RESTScopeName.root ∧ ds = RESTScopeName.root
            · have h' : (releaseHook ctx pre' (w ++ [gvk])).err = none := by
                simpa [releaseHook, hm, hs, ho, hc] using h
              have hrec := ih (w ++ [gvk]) h'
              simp [releaseHook, hm, hs, ho, hc, hrec]
            · rcases hsub : ctx.subscribeErr gvk with _ | e''
              · have h' : (releaseHook ctx pre' (w ++ [gvk])).err = none := by
                  simpa [releaseHook, hm, hs, ho, hc, hsub] using h
                have hrec := ih (w ++ [gvk]) h'
                simp [releaseHook, hm, hs, ho, hc, hsub, hrec]
              · simp [releaseHook, hm, hs, ho, hc, hsub] at h

end HelmController

namespace HelmController

/-- A pass that returns no error consumed only successfully decoded
documents. -/
theorem releaseHook_success_docs_ok (ctx : HookCtx) (ms : List ManifestDoc) :
    ∀ (w : List GVK), (releaseHook ctx ms w).err = none →
      ∀ d ∈ ms, ∃ g, d = Except.ok g := by
  induction ms with
  | nil =>
    intro w _ d hd
    simp at hd
  | cons d0 rest ih =>
    intro w h d hd
    rcases d0 with e | gvk
    · simp [releaseHook] at h
    · rcases List.mem_cons.mp hd with rfl | hd'
      · exact ⟨gvk, rfl⟩
      · by_cases hm : gvk ∈ w
        · exact ih w (by simpa [releaseHook, hm] using h) d hd'
        · rcases hs : ctx.scopeOf gvk with e | ds
          · simp [releaseHook, hm, hs] at h
          · rcases ho : ctx.scopeOf ctx.ownerGVK with e | os
            · simp [releaseHook, hm, hs, ho] at h
            · by_cases hc : os ≠ RESTScopeName.root ∧ ds = RESTScopeName.root
              · exact ih (w ++ [gvk])
                  (by simpa [releaseHook, hm, hs, ho, hc] using h) d hd'
              · rcases hsub : ctx.subscribeErr gvk with _ | e
                · exact ih (w ++ [gvk])
                    (by simpa [releaseHook, hm, hs, ho, hc, hsub] using h) d hd'
                · simp [releaseHook, hm, hs, ho, hc, hsub] at h

/-- Processing the same manifest a second time, starting from the
seen-set a successful first pass produced, is a complete no-op: no
error, no change, and no collaborator call at all. -/
theorem releaseHook_second_pass (ctx : HookCtx) (ms : List ManifestDoc)
    (w : List GVK) (h : (releaseHook ctx ms w).err = none) :
    releaseHook ctx ms (releaseHook ctx ms w).watches
      = ⟨none, (releaseHook ctx ms w).watches, []⟩ := by
  apply releaseHook_all_seen
  intro d hd
  obtain ⟨g, rfl⟩ := releaseHook_success_docs_ok ctx ms w h d hd
  exact ⟨g, rfl, releaseHook_success_adds ctx ms w h g hd⟩

/-- A cluster-scoped dependent kind under a namespace-scoped owner is
never subscribed to, in any pass, from any seen-set. -/
theorem releaseHook_scope_skip_no_watch (ctx : HookCtx) (g : GVK)
    (hdep : ctx.scopeOf g = Except.ok RESTScopeName.root)
    (hown : ctx.scopeOf ctx.ownerGVK = Except.ok RESTScopeName.namespaced)
    (ms : List ManifestDoc) :
    ∀ w : List GVK, HookEvent.watch g ∉ (releaseHook ctx ms w).trace := by
  induction ms with
  | nil =>
    intro w
    simp [releaseHook]
  | cons d rest ih =>
    intro w
    rcases d with e | gvk
    · simp [releaseHook]
    · by_cases hm : gvk ∈ w
      · simpa [releaseHook, hm] using ih w
      · by_cases hgg : gvk = g
        · have hdep' : ctx.scopeOf gvk = Except.ok RESTScopeName.root := by
            rw [hgg]
            exact hdep
          simp [releaseHook, hm, hdep', hown, ih (w ++ [gvk])]
        · have hgg' : g ≠ gvk := fun h => hgg h.symm
          rcases hs : ctx.scopeOf gvk with e | ds
          · simp [releaseHook, hm, hs]
          · by_cases hdr : ds = RESTScopeName.root
            · simp [releaseHook, hm, hs, hown, hdr, ih (w ++ [gvk])]
            · rcases hsub : ctx.subscribeErr gvk with _ | e
              · simp [releaseHook, hm, hs, hown, hdr, hsub, hgg',
                  ih (w ++ [gvk])]
              · simp [releaseHook, hm, hs, hown, hdr, hsub, hgg']

/-- Setting a condition makes it present. -/
theorem mem_setCondition (conds : List HelmAppCondition)
    (c : HelmAppCondition) : c ∈ setCondition conds c := by
  unfold setCondition
  split
  · rename_i h
    rw [List.any_eq_true] at h
    obtain ⟨x, hx, hxe⟩ := h
    rw [beq_iff_eq] at hxe
    exact List.mem_map.mpr ⟨x, hx, by simp [hxe]⟩
  · simp

end HelmController

namespace Finalizer

/-- With a single-entry manager whose name is absent from the working
list, the pass leaves the resource untouched. -/
theorem finalizeLoop_not_mem {σ E : Type} (nm : String) (f : FAction σ E)
    (tf : List String) :
    ∀ res : Resource σ, nm ∉ tf → (finalizeLoop [(nm, f)] res tf).res = res := by
  induction tf with
  | nil =>
    intro res _
    simp [finalizeLoop]
  | cons n rest ih =>
    intro res h
    simp only [List.mem_cons, not_or] at h
    obtain ⟨hne, hrest⟩ := h
    have hl : lookupFinalizer [(nm, f)] n = none := by
      simp [lookupFinalizer, hne]
    simpa [finalizeLoop, hl] using ih res hrest

/-- With a single-entry manager whose (always succeeding) action's name
occurs once in the duplicate-free working list, the pass's resource
state is exactly one application of the action. -/
theorem finalizeLoop_single_res {σ E : Type} (nm : String) (f : FAction σ E)
    (hok : ∀ s : Resource σ, (f s).2 = none) (tf : List String) :
    ∀ res : Resource σ, tf.Nodup → nm ∈ tf →
      (finalizeLoop [(nm, f)] res tf).res = (f res).1 := by
  induction tf with
  | nil =>
    intro res _ h
    simp at h
  | cons n rest ih =>
    intro res hnd hmem
    by_cases hne : nm = n
    · subst hne
      have hl : lookupFinalizer [(nm, f)] nm = some f := by
        simp [lookupFinalizer]
      rcases hf : f res with ⟨res', e'⟩
      have h2 : (f res).2 = none := hok res
      rw [hf] at h2
      simp only at h2
      subst h2
      have hrest : nm ∉ rest := (List.nodup_cons.mp hnd).1
      have hpass := finalizeLoop_not_mem nm f rest res' hrest
      simp [finalizeLoop, hl, hf, hpass]
    · rcases List.mem_cons.mp hmem with h | h
      · exact absurd h hne
      · have hl : lookupFinalizer [(nm, f)] n = none := by
          simp [lookupFinalizer, hne]
        simpa [finalizeLoop, hl] using ih res (List.nodup_cons.mp hnd).2 h

end Finalizer

namespace HelmController

/-- C5: the dependent-resource event predicate passes an update iff the
two objects still differ once `status` is deleted and `resourceVersion`
cleared on both sides — equivalently, iff any other field differs; it
rejects every create notification and accepts every delete
notification. -/
theorem c5_dependent_predicate {V O : Type} [DecidableEq V] [DecidableEq O] :
    (∀ old new : DepObj V O,
      (dependentUpdateFunc old new = false
        ↔ stripForCompare old = stripForCompare new)) ∧
    (∀ old new : DepObj V O,
      (dependentUpdateFunc old new = true ↔ old.other ≠ new.other)) ∧
    (∀ obj : DepObj V O, dependentCreateFunc obj = false) ∧
    (∀ obj : DepObj V O, dependentDeleteFunc obj = true) := by
  have hso : ∀ a b : DepObj V O,
      stripForCompare a = stripForCompare b ↔ a.other = b.other := by
    intro a b
    simp [stripForCompare, DepObj.mk.injEq]
  refine ⟨?_, ?_, fun _ => rfl, fun _ => rfl⟩
  · intro old new
    unfold dependentUpdateFunc
    split <;> rename_i h <;> simp [h]
  · intro old new
    unfold dependentUpdateFunc
    split <;> rename_i h
    · simp [(hso old new).mp h]
    · have hne : old.other ≠ new.other := fun he => h ((hso old new).mpr he)
      simp [hne]

/-- C6: when the dependent kind resolves cluster-scoped and the owner
kind namespace-scoped, no registration pass ever subscribes for that
kind; a pass that succeeds on a manifest containing the kind still adds
it to the seen-set; and re-processing a manifest after a successful pass
is a complete no-op, performing no scope-resolution lookup at all. -/
theorem c6_scope_incompatible_marked_seen (ctx : HookCtx) (g : GVK)
    (hdep : ctx.scopeOf g = Except.ok RESTScopeName.root)
    (hown : ctx.scopeOf ctx.ownerGVK = Except.ok RESTScopeName.namespaced) :
    (∀ (ms : List ManifestDoc) (w : List GVK),
        HookEvent.watch g ∉ (releaseHook ctx ms w).trace) ∧
    (∀ (ms : List ManifestDoc) (w : List GVK),
        (releaseHook ctx ms w).err = none → Except.ok g ∈ ms →
          g ∈ (releaseHook ctx ms w).watches) ∧
    (∀ (ms : List ManifestDoc) (w : List GVK),
        (releaseHook ctx ms w).err = none →
          releaseHook ctx ms (releaseHook ctx ms w).watches
            = ⟨none, (releaseHook ctx ms w).watches, []⟩) :=
  ⟨fun ms w => releaseHook_scope_skip_no_watch ctx g hdep hown ms w,
   fun ms w h hg => releaseHook_success_adds ctx ms w h g hg,
   fun ms w h => releaseHook_second_pass ctx ms w h⟩

/-- C6 witness at a concrete cluster-scoped kind under a
namespace-scoped owner. -/
theorem c6_witness :
    HookEvent.watch clusterKind
      ∉ (releaseHook ctxSample [Except.ok clusterKind] []).trace ∧
    clusterKind ∈ (releaseHook ctxSample [Except.ok clusterKind] []).watches ∧
    releaseHook ctxSample [Except.ok clusterKind]
        (releaseHook ctxSample [Except.ok clusterKind] []).watches
      = ⟨none, (releaseHook ctxSample [Except.ok clusterKind] []).watches,
          []⟩ := by
  obtain ⟨h1, h2, h3⟩ :=
    c6_scope_incompatible_marked_seen ctxSample clusterKind rfl rfl
  exact ⟨h1 [Except.ok clusterKind] [],
    h2 [Except.ok clusterKind] [] rfl (List.mem_singleton.mpr rfl),
    h3 [Except.ok clusterKind] [] rfl⟩

/-- C7: the seen-set only grows (a kind is never removed); no
subscription is attempted for a kind already seen; any single pass
subscribes at most once per kind; and a second pass over the same
manifest after a successful one performs zero subscribe calls. -/
theorem c7_watch_registered_at_most_once (ctx : HookCtx) :
    (∀ (ms : List ManifestDoc) (w : List GVK) (g : GVK), g ∈ w →
        g ∈ (releaseHook ctx ms w).watches) ∧
    (∀ (ms : List ManifestDoc) (w : List GVK) (g : GVK), g ∈ w →
        HookEvent.watch g ∉ (releaseHook ctx ms w).trace) ∧
    (∀ (ms : List ManifestDoc) (w : List GVK) (g : GVK),
        (releaseHook ctx ms w).trace.count (HookEvent.watch g) ≤ 1) ∧
    (∀ (ms : List ManifestDoc) (w : List GVK),
        (releaseHook ctx ms w).err = none →
          releaseHook ctx ms (releaseHook ctx ms w).watches
            = ⟨none, (releaseHook ctx ms w).watches, []⟩) := by
  refine ⟨fun ms w g h => releaseHook_mono ctx ms w g h,
    fun ms w g h => releaseHook_seen_no_watch ctx ms w g h,
    fun ms w g => ?_,
    fun ms w h => releaseHook_second_pass ctx ms w h⟩
  have hcount := releaseHook_watch_count ctx ms w g
  split at hcount
  · omega
  · exact hcount

/-- C7 witness on a two-kind manifest processed with one kind already
seen. -/
theorem c7_witness :
    deployKind ∈ (releaseHook ctxSample
        [Except.ok deployKind, Except.ok svcKind] [deployKind]).watches ∧
    HookEvent.watch deployKind ∉ (releaseHook ctxSample
        [Except.ok deployKind, Except.ok svcKind] [deployKind]).trace ∧
    (releaseHook ctxSample [Except.ok deployKind, Except.ok svcKind]
        [deployKind]).trace.count (HookEvent.watch svcKind) ≤ 1 ∧
    releaseHook ctxSample [Except.ok deployKind, Except.ok svcKind]
        (releaseHook ctxSample [Except.ok deployKind, Except.ok svcKind]
          [deployKind]).watches
      = ⟨none, (releaseHook ctxSample
          [Except.ok deployKind, Except.ok svcKind] [deployKind]).watches,
          []⟩ := by
  obtain ⟨h1, h2, h3, h4⟩ := c7_watch_registered_at_most_once ctxSample
  exact ⟨h1 _ _ deployKind (List.mem_singleton.mpr rfl),
    h2 _ _ deployKind (List.mem_singleton.mpr rfl),
    h3 _ _ svcKind,
    h4 _ _ rfl⟩

/-- C8: a decode failure partway through the manifest aborts the pass
with that error; the seen-set afterwards is exactly the one built by the
error-free prefix (kinds registered earlier, or previously, survive the
abort), and a retry attempts no subscription for any kind already in the
seen-set. -/
theorem c8_decode_failure_aborts (ctx : HookCtx) (e : String)
    (pre rest : List ManifestDoc) (w : List GVK)
    (hpre : (releaseHook ctx pre w).err = none) :
    releaseHook ctx (pre ++ Except.error e :: rest) w
      = ⟨some e, (releaseHook ctx pre w).watches,
          (releaseHook ctx pre w).trace⟩ ∧
    (∀ g ∈ w,
        g ∈ (releaseHook ctx (pre ++ Except.error e :: rest) w).watches) ∧
    (∀ g ∈ (releaseHook ctx (pre ++ Except.error e :: rest) w).watches,
        HookEvent.watch g
          ∉ (releaseHook ctx (pre ++ Except.error e :: rest)
              ((releaseHook ctx
                (pre ++ Except.error e :: rest) w).watches)).trace) :=
  ⟨releaseHook_decode_abort ctx e rest pre w hpre,
   fun g hg => releaseHook_mono ctx _ w g hg,
   fun g hg => releaseHook_seen_no_watch ctx _ _ g hg⟩

/-- C8 witness: one good document, then a decode error, then an
unreached document. -/
theorem c8_witness :
    releaseHook ctxSample
        ([Except.ok deployKind] ++ Except.error "bad doc"
          :: [Except.ok svcKind]) [svcKind]
      = ⟨some "bad doc",
          (releaseHook ctxSample [Except.ok deployKind] [svcKind]).watches,
          (releaseHook ctxSample [Except.ok deployKind] [svcKind]).trace⟩ ∧
    svcKind ∈ (releaseHook ctxSample
        ([Except.ok deployKind] ++ Except.error "bad doc"
          :: [Except.ok svcKind]) [svcKind]).watches ∧
    HookEvent.watch deployKind
      ∉ (releaseHook ctxSample
          ([Except.ok deployKind] ++ Except.error "bad doc"
            :: [Except.ok svcKind])
          ((releaseHook ctxSample
            ([Except.ok deployKind] ++ Except.error "bad doc"
              :: [Except.ok svcKind]) [svcKind]).watches)).trace := by
  obtain ⟨h1, h2, h3⟩ := c8_decode_failure_aborts ctxSample "bad doc"
    [Except.ok deployKind] [Except.ok svcKind] [svcKind] rfl
  exact ⟨h1, h2 svcKind (List.mem_singleton.mpr rfl),
    h3 deployKind (by decide)⟩

end HelmController

namespace HelmController

/-- C4: the uninstall finalizer treats a not-found release as success
(no error returned, so the name can be dropped); on an actual uninstall
it sets `Deployed=False` with reason "uninstall successful" and returns
no error, so driving the manager's `Finalize` removes the registered
name only after the condition is in place; on any other uninstall error
it records `ReleaseFailed=True` with the error message and returns that
error. -/
theorem c4_uninstall_finalizer_outcomes (o : HelmCR) (m msg : String)
    (ue : Option String) (hnd : o.finalizers.Nodup)
    (hmem : uninstallFinalizerName ∈ o.finalizers) :
    (uninstallFinalize UninstallOutcome.errNotFound none o).2 = none ∧
    ((uninstallFinalize (UninstallOutcome.ok m) none o).2 = none ∧
      (⟨ConditionType.deployed, ConditionStatus.statusFalse,
          some ConditionReason.uninstallSuccessful, ""⟩ : HelmAppCondition)
        ∈ ((uninstallFinalize (UninstallOutcome.ok m) none o).1).payload) ∧
    ((uninstallFinalize (UninstallOutcome.err msg) ue o).2 = some msg ∧
      (⟨ConditionType.releaseFailed, ConditionStatus.statusTrue,
          some ConditionReason.uninstallError, msg⟩ : HelmAppCondition)
        ∈ ((uninstallFinalize (UninstallOutcome.err msg) ue o).1).payload) ∧
    ((Finalizer.finalize (addManager (UninstallOutcome.ok m) none) o).err
        = none ∧
      uninstallFinalizerName ∉ ((Finalizer.finalize
        (addManager (UninstallOutcome.ok m) none) o).res).finalizers ∧
      (⟨ConditionType.deployed, ConditionStatus.statusFalse,
          some ConditionReason.uninstallSuccessful, ""⟩ : HelmAppCondition)
        ∈ ((Finalizer.finalize
            (addManager (UninstallOutcome.ok m) none) o).res).payload) := by
  have hfm : addManager (UninstallOutcome.ok m) none
      = [(uninstallFinalizerName, uninstallAction (UninstallOutcome.ok m) none)] :=
    rfl
  have hok : ∀ p ∈ addManager (UninstallOutcome.ok m) none,
      ∀ s : HelmCR, (p.2 s).2 = none := by
    intro p hp s
    rw [hfm] at hp
    simp only [List.mem_cons, List.not_mem_nil, or_false] at hp
    subst hp
    rfl
  obtain ⟨he, hruns, hkeep⟩ :=
    Finalizer.finalize_all_ok (addManager (UninstallOutcome.ok m) none) o hok
  refine ⟨rfl, ⟨rfl, ?_⟩, ⟨rfl, ?_⟩, he, ?_, ?_⟩
  · exact mem_setCondition
      (removeCondition o.payload ConditionType.releaseFailed) _
  · exact mem_setCondition o.payload _
  · rw [hkeep]
    intro hmem'
    rw [List.mem_filter] at hmem'
    have hnone := hmem'.2
    rw [hfm] at hnone
    simp [Finalizer.lookupFinalizer] at hnone
  · have ho : (Finalizer.finalizeLoop (addManager (UninstallOutcome.ok m) none)
        o o.finalizers).err = none :=
      Finalizer.finalizeLoop_err_none _ hok o.finalizers o
    have hp : ((Finalizer.finalize (addManager (UninstallOutcome.ok m) none)
          o).res).payload
        = ((Finalizer.finalizeLoop (addManager (UninstallOutcome.ok m) none)
            o o.finalizers).res).payload := by
      simp [Finalizer.finalize, ho]
    rw [hp, hfm]
    rw [Finalizer.finalizeLoop_single_res uninstallFinalizerName
      (uninstallAction (UninstallOutcome.ok m) none) (fun _ => rfl)
      o.finalizers o hnd hmem]
    exact mem_setCondition
      (removeCondition o.payload ConditionType.releaseFailed) _

/-- C4 witness at a concrete resource carrying the uninstall finalizer
and one foreign finalizer name. -/
theorem c4_witness :
    (uninstallFinalize UninstallOutcome.errNotFound none crSample).2 = none ∧
    ((uninstallFinalize (UninstallOutcome.ok "m") none crSample).2 = none ∧
      (⟨ConditionType.deployed, ConditionStatus.statusFalse,
          some ConditionReason.uninstallSuccessful, ""⟩ : HelmAppCondition)
        ∈ ((uninstallFinalize (UninstallOutcome.ok "m") none crSample).1).payload) ∧
    ((uninstallFinalize (UninstallOutcome.err "no perms") (some "x")
        crSample).2 = some "no perms" ∧
      (⟨ConditionType.releaseFailed, ConditionStatus.statusTrue,
          some ConditionReason.uninstallError, "no perms"⟩ : HelmAppCondition)
        ∈ ((uninstallFinalize (UninstallOutcome.err "no perms") (some "x")
            crSample).1).payload) ∧
    ((Finalizer.finalize (addManager (UninstallOutcome.ok "m") none)
        crSample).err = none ∧
      uninstallFinalizerName ∉ ((Finalizer.finalize
        (addManager (UninstallOutcome.ok "m") none) crSample).res).finalizers ∧
      (⟨ConditionType.deployed, ConditionStatus.statusFalse,
          some ConditionReason.uninstallSuccessful, ""⟩ : HelmAppCondition)
        ∈ ((Finalizer.finalize
            (addManager (UninstallOutcome.ok "m") none)
            crSample).res).payload) :=
  c4_uninstall_finalizer_outcomes crSample "m" "no perms" (some "x")
    (by decide) (by decide)

end HelmController
